import Mathlib

/-!
Verification of the ingestion pipeline of the tiled-expert-api repository
(`crawl_tiled_docs.py`), against its natural-language specification.

The Python source is shallowly embedded:
* document text is `Text := List Char`; Python slicing, `str.rfind`,
  `str.strip` and `str.split` are modelled by executable functions below;
* the float literal `0.3` in the split-floor comparison
  `offset > chunk_size * 0.3` is modelled exactly as the rational `3 / 10`
  (the comparison is written `10 * offset > 3 * chunk_size` over `Int`);
  for the default `chunk_size = 4000` this agrees with the Python float
  comparison, whose threshold is exactly `1200.0`;
* the remote capabilities (chat completion, embeddings) and the vector
  store are external collaborators; their outcomes enter as explicit
  oracle arguments (`Except` values, a store-acceptance predicate), and
  embedding components (Python floats) are modelled as rationals;
* the `while` loop of `chunk_text` is modelled with explicit fuel
  (`t.length + 1` suffices, which is proved as the termination claim).
-/

/-- Document text, modelling a Python `str` as its list of characters. -/
abbrev Text := List Char

/-- Python slice `t[a:b]` for `0 ≤ a ≤ b` (clamped at the ends). -/
def pySlice (t : Text) (a b : Nat) : Text :=
  (t.drop a).take (b - a)

/-- The ASCII whitespace characters stripped by Python `str.strip()`. -/
def isPySpace (c : Char) : Bool :=
  c = ' ' || c = '\t' || c = '\n' || c = '\r' || c = '\x0b' || c = '\x0c'

/-- Remove leading whitespace, as in Python `str.lstrip()`. -/
def lstrip (t : Text) : Text :=
  t.dropWhile isPySpace

/-- Python `str.strip()`: remove leading and trailing whitespace. -/
def strip (t : Text) : Text :=
  (lstrip ((lstrip t).reverse)).reverse

/-- All indices at which `pat` occurs in `t`, in increasing order. -/
def occurrences (pat t : Text) : List Nat :=
  (List.range (t.length + 1)).filter (fun i => pat.isPrefixOf (t.drop i))

/-- Python `t.rfind(pat)`: the largest index of an occurrence of `pat`
in `t`, or `-1` when there is none. -/
def rfind (pat t : Text) : Int :=
  match (occurrences pat t).getLast? with
  | none => -1
  | some i => (i : Int)

/-- The backtick character, written by code to avoid the literal. -/
def btick : Char := Char.ofNat 96

/-- The pattern of `chunk.rfind(chr(10) + hash hash space)` in the source,
that is the four characters of a second-level markdown heading boundary. -/
def headingPat2 : Text := ['\n', '#', '#', ' ']

/-- The three characters of a first-level markdown heading boundary. -/
def headingPat1 : Text := ['\n', '#', ' ']

/-- The three backticks of a fenced code-block delimiter. -/
def fencePat : Text := [btick, btick, btick]

/-- A blank-line paragraph break: two consecutive newlines. -/
def blankPat : Text := ['\n', '\n']

/-- A sentence terminator: a period followed by a space. -/
def periodPat : Text := ['.', ' ']

/-- The window `text[start : start + chunk_size]` examined by one
iteration of the `chunk_text` loop (source line 51). -/
def window (chunkSize : Nat) (t : Text) (start : Nat) : Text :=
  pySlice t start (start + chunkSize)

/-- `max(chunk.rfind(heading2), chunk.rfind(heading1))` of source
lines 52 to 55 (`-1` when neither heading occurs in the window). -/
def sectionBreak (chunkSize : Nat) (t : Text) (start : Nat) : Int :=
  max (rfind headingPat2 (window chunkSize t start))
      (rfind headingPat1 (window chunkSize t start))

/-- The adjusted window end chosen by one iteration of `chunk_text`
(source lines 44 to 75): tentatively `start + chunk_size`, moved back to
a heading boundary, fenced code-block delimiter, blank line, or sentence
terminator.  The branches mirror the `if / elif` chain of the source: a
strategy is examined only when no earlier strategy branch was entered,
and inside the fence, blank-line and sentence branches a failed floor
check keeps the tentative end (it does not try later strategies). -/
def splitEnd (chunkSize : Nat) (t : Text) (start : Nat) : Nat :=
  if sectionBreak chunkSize t start ≠ -1 ∧
      10 * sectionBreak chunkSize t start > 3 * (chunkSize : Int) then
    start + (sectionBreak chunkSize t start).toNat
  else if rfind fencePat (window chunkSize t start) ≠ -1 then
    if rfind fencePat (window chunkSize t start) ≠ -1 ∧
        10 * rfind fencePat (window chunkSize t start) > 3 * (chunkSize : Int) then
      start + (rfind fencePat (window chunkSize t start)).toNat
    else start + chunkSize
  else if rfind blankPat (window chunkSize t start) ≠ -1 then
    if 10 * rfind blankPat (window chunkSize t start) > 3 * (chunkSize : Int) then
      start + (rfind blankPat (window chunkSize t start)).toNat
    else start + chunkSize
  else if rfind periodPat (window chunkSize t start) ≠ -1 then
    if 10 * rfind periodPat (window chunkSize t start) > 3 * (chunkSize : Int) then
      start + (rfind periodPat (window chunkSize t start)).toNat + 1
    else start + chunkSize
  else start + chunkSize

/-- The `while start < text_length` loop of `chunk_text` (source lines
43 to 81), with explicit fuel.  When `start + chunk_size` reaches the end
of the text the stripped remainder is appended unconditionally and the
loop stops; otherwise the stripped window up to `splitEnd` is appended
when non-empty and the cursor advances to `splitEnd`. -/
def chunkLoop (chunkSize : Nat) (t : Text) : Nat → Nat → List Text
  | _, 0 => []
  | start, fuel + 1 =>
    if start < t.length then
      if t.length ≤ start + chunkSize then
        [strip (t.drop start)]
      else
        let c := strip (pySlice t start (splitEnd chunkSize t start))
        if c = [] then chunkLoop chunkSize t (splitEnd chunkSize t start) fuel
        else c :: chunkLoop chunkSize t (splitEnd chunkSize t start) fuel
    else []

/-- `chunk_text(text, chunk_size = 4000)` of the source (lines 37 to 83):
split text into chunks respecting the documentation structure. -/
def chunk_text (t : Text) (chunkSize : Nat := 4000) : List Text :=
  chunkLoop chunkSize t 0 (t.length + 1)

/-! ### Basic lemmas about the text primitives -/

theorem getLast?_mem_of_eq {α : Type} {l : List α} {a : α}
    (h : l.getLast? = some a) : a ∈ l := by
  induction l with
  | nil => simp at h
  | cons b bs ih =>
    cases bs with
    | nil => simp_all
    | cons c cs =>
      rw [List.getLast?_cons_cons] at h
      exact List.mem_cons_of_mem _ (ih h)

theorem pySlice_length_le (t : Text) (a b : Nat) :
    (pySlice t a b).length ≤ b - a := by
  unfold pySlice
  rw [List.length_take]
  exact min_le_left _ _

theorem window_length_le (chunkSize : Nat) (t : Text) (start : Nat) :
    (window chunkSize t start).length ≤ chunkSize := by
  have h := pySlice_length_le t start (start + chunkSize)
  unfold window
  omega

theorem rfind_bound (pat w : Text) (h : rfind pat w ≠ -1) :
    ∃ n : Nat, rfind pat w = (n : Int) ∧ n + pat.length ≤ w.length := by
  unfold rfind at *
  cases hg : (occurrences pat w).getLast? with
  | none => rw [hg] at h; simp at h
  | some i =>
    refine ⟨i, rfl, ?_⟩
    have hm : i ∈ occurrences pat w := getLast?_mem_of_eq hg
    unfold occurrences at hm
    rw [List.mem_filter, List.mem_range] at hm
    obtain ⟨hr, hp⟩ := hm
    have hpre : pat <+: w.drop i := List.isPrefixOf_iff_prefix.mp hp
    have hlen := hpre.length_le
    rw [List.length_drop] at hlen
    omega

theorem rfind_nonneg_of_ne (pat w : Text) (h : rfind pat w ≠ -1) :
    0 ≤ rfind pat w := by
  obtain ⟨n, hn, _⟩ := rfind_bound pat w h
  rw [hn]
  exact Int.ofNat_nonneg n

theorem sectionBreak_bound (chunkSize : Nat) (t : Text) (start : Nat)
    (h : sectionBreak chunkSize t start ≠ -1) :
    ∃ n : Nat, sectionBreak chunkSize t start = (n : Int) ∧
      n ≤ (window chunkSize t start).length := by
  unfold sectionBreak at h ⊢
  rcases max_choice (rfind headingPat2 (window chunkSize t start))
    (rfind headingPat1 (window chunkSize t start)) with hc | hc <;> rw [hc] at h ⊢
  · obtain ⟨n, hn, hb⟩ := rfind_bound _ _ h
    exact ⟨n, hn, by omega⟩
  · obtain ⟨n, hn, hb⟩ := rfind_bound _ _ h
    exact ⟨n, hn, by omega⟩

/-- Every branch of `splitEnd` yields `start + n` with `n` at most
`chunk_size`, and `n` is either exactly `chunk_size` (the hard cut) or
strictly past the thirty percent floor. -/
theorem splitEnd_spec (chunkSize : Nat) (t : Text) (start : Nat) :
    ∃ n : Nat, splitEnd chunkSize t start = start + n ∧ n ≤ chunkSize ∧
      (n = chunkSize ∨ 3 * chunkSize < 10 * n) := by
  have hw := window_length_le chunkSize t start
  unfold splitEnd
  split
  · next hsec =>
    obtain ⟨hne, hgt⟩ := hsec
    obtain ⟨n, hn, hb⟩ := sectionBreak_bound chunkSize t start hne
    exact ⟨n, by omega, by omega, Or.inr (by omega)⟩
  · split
    · split
      · next hf =>
        obtain ⟨hne, hgt⟩ := hf
        obtain ⟨n, hn, hb⟩ := rfind_bound _ _ hne
        exact ⟨n, by omega, by omega, Or.inr (by omega)⟩
      · exact ⟨chunkSize, rfl, le_refl _, Or.inl rfl⟩
    · split
      · next hblank =>
        split
        · next hgt =>
          obtain ⟨n, hn, hb⟩ := rfind_bound _ _ hblank
          exact ⟨n, by omega, by omega, Or.inr (by omega)⟩
        · exact ⟨chunkSize, rfl, le_refl _, Or.inl rfl⟩
      · split
        · next hperiod =>
          split
          · next hgt =>
            obtain ⟨n, hn, hb⟩ := rfind_bound _ _ hperiod
            have hpl : periodPat.length = 2 := rfl
            exact ⟨n + 1, by omega, by omega, Or.inr (by omega)⟩
          · exact ⟨chunkSize, rfl, le_refl _, Or.inl rfl⟩
        · exact ⟨chunkSize, rfl, le_refl _, Or.inl rfl⟩

theorem splitEnd_le (chunkSize : Nat) (t : Text) (start : Nat) :
    splitEnd chunkSize t start ≤ start + chunkSize := by
  obtain ⟨n, hn, hle, _⟩ := splitEnd_spec chunkSize t start
  omega

theorem splitEnd_advances (chunkSize : Nat) (t : Text) (start : Nat)
    (h : 1 ≤ chunkSize) : start < splitEnd chunkSize t start := by
  obtain ⟨n, hn, _, hor⟩ := splitEnd_spec chunkSize t start
  rcases hor with hc | hc <;> omega

theorem strip_length_le (t : Text) : (strip t).length ≤ t.length := by
  unfold strip lstrip
  rw [List.length_reverse]
  have h1 := (List.dropWhile_sublist (l := (List.dropWhile isPySpace t).reverse)
    isPySpace).length_le
  rw [List.length_reverse] at h1
  have h2 := (List.dropWhile_sublist (l := t) isPySpace).length_le
  omega

theorem lstrip_head_false {l l' : Text} {a : Char} (h : lstrip l = a :: l') :
    isPySpace a = false := by
  induction l with
  | nil => simp [lstrip] at h
  | cons b bs ih =>
    unfold lstrip at h
    rw [List.dropWhile_cons] at h
    by_cases hb : isPySpace b = true
    · rw [if_pos hb] at h
      exact ih h
    · rw [if_neg hb] at h
      cases h
      simpa using hb

theorem lstrip_of_head_false {a : Char} (l : Text) (h : isPySpace a = false) :
    lstrip (a :: l) = a :: l := by
  unfold lstrip
  rw [List.dropWhile_cons]
  simp [h]

theorem lstrip_idem (l : Text) : lstrip (lstrip l) = lstrip l := by
  cases hc : lstrip l with
  | nil => rfl
  | cons a l' => exact lstrip_of_head_false l' (lstrip_head_false hc)

theorem getLast?_lstrip (l : Text) (hne : lstrip l ≠ []) :
    (lstrip l).getLast? = l.getLast? := by
  obtain ⟨pre, hp⟩ := List.dropWhile_suffix (l := l) isPySpace
  have hp' : pre ++ lstrip l = l := hp
  conv_rhs => rw [← hp']
  rw [List.getLast?_append]
  cases hg : (lstrip l).getLast? with
  | none =>
    cases hL : lstrip l with
    | nil => exact absurd hL hne
    | cons x xs =>
      rw [hL] at hg
      simp [List.getLast?_eq_none_iff] at hg
  | some x => rfl

theorem strip_idem (l : Text) : strip (strip l) = strip l := by
  unfold strip
  set u := (lstrip l).reverse with hu
  set r := (lstrip u).reverse with hr
  have h1 : lstrip r = r := by
    cases hc : r with
    | nil => rfl
    | cons a r' =>
      have hner : r ≠ [] := by rw [hc]; simp
      have hne_lu : lstrip u ≠ [] := by
        intro h0
        rw [hr, h0] at hner
        simp at hner
      have h3 : r.head? = (lstrip u).getLast? := by rw [hr, List.head?_reverse]
      have h4 : (lstrip u).getLast? = u.getLast? := getLast?_lstrip u hne_lu
      have h5 : u.getLast? = (lstrip l).head? := by rw [hu, List.getLast?_reverse]
      have h6 : (lstrip l).head? = some a := by
        rw [← h5, ← h4, ← h3, hc]
        rfl
      obtain ⟨l', hl'⟩ : ∃ l', lstrip l = a :: l' := by
        cases hL : lstrip l with
        | nil => rw [hL] at h6; simp at h6
        | cons x xs =>
          rw [hL] at h6
          simp at h6
          exact ⟨xs, by rw [h6]⟩
      exact lstrip_of_head_false r' (lstrip_head_false hl')
  have h2 : r.reverse = lstrip u := by rw [hr, List.reverse_reverse]
  rw [h1, h2, lstrip_idem, ← hr]

theorem splitEnd_zero (t : Text) (start : Nat) : splitEnd 0 t start = start := by
  obtain ⟨n, hn, hle, _⟩ := splitEnd_spec 0 t start
  omega

/-! ### Lemmas about the chunking loop -/

theorem mem_chunkLoop_strip (chunkSize : Nat) (t : Text) :
    ∀ (fuel start : Nat), ∀ c ∈ chunkLoop chunkSize t start fuel, strip c = c := by
  intro fuel
  induction fuel with
  | zero => intro start c hc; simp [chunkLoop] at hc
  | succ f ih =>
    intro start c hc
    simp only [chunkLoop] at hc
    by_cases h1 : start < t.length
    · rw [if_pos h1] at hc
      by_cases h2 : t.length ≤ start + chunkSize
      · rw [if_pos h2] at hc
        simp only [List.mem_singleton] at hc
        rw [hc]
        exact strip_idem _
      · rw [if_neg h2] at hc
        by_cases h3 : strip (pySlice t start (splitEnd chunkSize t start)) = []
        · rw [if_pos h3] at hc
          exact ih _ _ hc
        · rw [if_neg h3] at hc
          rcases List.mem_cons.mp hc with hceq | hcm
          · rw [hceq]
            exact strip_idem _
          · exact ih _ _ hcm
    · rw [if_neg h1] at hc
      simp at hc

theorem mem_chunkLoop_length (chunkSize : Nat) (t : Text) :
    ∀ (fuel start : Nat), ∀ c ∈ chunkLoop chunkSize t start fuel,
      c.length ≤ chunkSize := by
  intro fuel
  induction fuel with
  | zero => intro start c hc; simp [chunkLoop] at hc
  | succ f ih =>
    intro start c hc
    simp only [chunkLoop] at hc
    by_cases h1 : start < t.length
    · rw [if_pos h1] at hc
      by_cases h2 : t.length ≤ start + chunkSize
      · rw [if_pos h2] at hc
        simp only [List.mem_singleton] at hc
        have hs := strip_length_le (t.drop start)
        rw [List.length_drop] at hs
        rw [hc]
        omega
      · rw [if_neg h2] at hc
        have hle := splitEnd_le chunkSize t start
        have hsl := pySlice_length_le t start (splitEnd chunkSize t start)
        have hst := strip_length_le (pySlice t start (splitEnd chunkSize t start))
        by_cases h3 : strip (pySlice t start (splitEnd chunkSize t start)) = []
        · rw [if_pos h3] at hc
          exact ih _ _ hc
        · rw [if_neg h3] at hc
          rcases List.mem_cons.mp hc with hceq | hcm
          · rw [hceq]
            omega
          · exact ih _ _ hcm
    · rw [if_neg h1] at hc
      simp at hc

theorem chunkLoop_ne_nil (chunkSize : Nat) (t : Text) (hcs : 1 ≤ chunkSize) :
    ∀ (fuel start : Nat), start < t.length → t.length ≤ start + fuel →
      chunkLoop chunkSize t start fuel ≠ [] := by
  intro fuel
  induction fuel with
  | zero => intro start h1 h2; omega
  | succ f ih =>
    intro start h1 h2
    simp only [chunkLoop]
    rw [if_pos h1]
    by_cases h3 : t.length ≤ start + chunkSize
    · rw [if_pos h3]
      simp
    · rw [if_neg h3]
      have hadv := splitEnd_advances chunkSize t start hcs
      have hle := splitEnd_le chunkSize t start
      by_cases h4 : strip (pySlice t start (splitEnd chunkSize t start)) = []
      · rw [if_pos h4]
        exact ih (splitEnd chunkSize t start) (by omega) (by omega)
      · rw [if_neg h4]
        simp

theorem dropLast_cons_ne_nil {α : Type} (a : α) {l : List α} (h : l ≠ []) :
    (a :: l).dropLast = a :: l.dropLast := by
  cases l with
  | nil => exact absurd rfl h
  | cons b bs => rfl

theorem chunkLoop_dropLast_ne_nil (chunkSize : Nat) (t : Text) (hcs : 1 ≤ chunkSize) :
    ∀ (fuel start : Nat), t.length ≤ start + fuel →
      ∀ c ∈ (chunkLoop chunkSize t start fuel).dropLast, c ≠ [] := by
  intro fuel
  induction fuel with
  | zero => intro start hf c hc; simp [chunkLoop] at hc
  | succ f ih =>
    intro start hf c hc
    simp only [chunkLoop] at hc
    by_cases h1 : start < t.length
    · rw [if_pos h1] at hc
      by_cases h2 : t.length ≤ start + chunkSize
      · rw [if_pos h2] at hc
        simp at hc
      · rw [if_neg h2] at hc
        have hadv := splitEnd_advances chunkSize t start hcs
        have hle := splitEnd_le chunkSize t start
        by_cases h3 : strip (pySlice t start (splitEnd chunkSize t start)) = []
        · rw [if_pos h3] at hc
          exact ih _ (by omega) c hc
        · rw [if_neg h3] at hc
          have hrec : chunkLoop chunkSize t (splitEnd chunkSize t start) f ≠ [] :=
            chunkLoop_ne_nil chunkSize t hcs f (splitEnd chunkSize t start)
              (by omega) (by omega)
          rw [dropLast_cons_ne_nil _ hrec] at hc
          rcases List.mem_cons.mp hc with hceq | hcm
          · rw [hceq]
            exact h3
          · exact ih _ (by omega) c hcm
    · rw [if_neg h1] at hc
      simp at hc

theorem chunkLoop_stable (chunkSize : Nat) (t : Text) (hcs : 1 ≤ chunkSize) :
    ∀ (f1 start f2 : Nat), t.length ≤ start + f1 → t.length ≤ start + f2 →
      chunkLoop chunkSize t start f1 = chunkLoop chunkSize t start f2 := by
  intro f1
  induction f1 with
  | zero =>
    intro start f2 h1 h2
    cases f2 with
    | zero => rfl
    | succ g =>
      simp only [chunkLoop]
      rw [if_neg (by omega)]
  | succ f ih =>
    intro start f2 h1 h2
    cases f2 with
    | zero =>
      simp only [chunkLoop]
      rw [if_neg (by omega)]
    | succ g =>
      simp only [chunkLoop]
      by_cases hs : start < t.length
      · rw [if_pos hs, if_pos hs]
        by_cases h3 : t.length ≤ start + chunkSize
        · rw [if_pos h3, if_pos h3]
        · rw [if_neg h3, if_neg h3]
          have hadv := splitEnd_advances chunkSize t start hcs
          have heq := ih (splitEnd chunkSize t start) g (by omega) (by omega)
          by_cases h4 : strip (pySlice t start (splitEnd chunkSize t start)) = []
          · rw [if_pos h4, if_pos h4, heq]
          · rw [if_neg h4, if_neg h4, heq]
      · rw [if_neg hs, if_neg hs]

/-! ### The enrichment and persistence model

The OpenAI chat and embedding calls of `get_title_and_summary` and
`get_embedding` are remote capabilities: their outcomes are supplied as
`Except` values by an `EnrichOracle`.  A parsed chat response is a JSON
object whose three expected keys may each be absent; JSON values are
modelled by the constructors the pipeline manipulates (the fallback
metadata uses null, strings and string lists). -/

/-- A JSON-compatible metadata value as manipulated by the pipeline. -/
inductive JVal where
  | null
  | str (s : String)
  | strList (xs : List String)
deriving DecidableEq

/-- A parsed chat-completion response: each of the three required keys
of the JSON object may be present or absent. -/
structure RawResponse where
  title? : Option String
  summary? : Option String
  metadata? : Option (List (String × JVal))
deriving DecidableEq

/-- The validated result of `get_title_and_summary`. -/
structure TitleSummary where
  title : String
  summary : String
  metadata : List (String × JVal)
deriving DecidableEq

/-- Python `url.split(chr(47))` for a one-character separator: split at
every occurrence, keeping empty segments. -/
def splitOnChar (sep : Char) : Text → List Text
  | [] => [[]]
  | c :: rest =>
    if c = sep then [] :: splitOnChar sep rest
    else
      match splitOnChar sep rest with
      | [] => [[c]]
      | s :: ss => (c :: s) :: ss

/-- The source function `url.split(slash)[negative 2]` (line 130): the segment
before the last slash.  Python raises when fewer than two segments
exist; the model totalises with an empty default, and theorems that rely
on this function carry the two-segment hypothesis. -/
def penultimateSegment (url : String) : String :=
  ⟨(splitOnChar '/' url.data).getD ((splitOnChar '/' url.data).length - 2) []⟩

/-- The metadata object built in the `except` branch of
`get_title_and_summary` (source lines 132 to 138). -/
def errorMetadata (e : String) : List (String × JVal) :=
  [("category", JVal.str "Error"), ("features", JVal.strList []),
   ("file_formats", JVal.strList []), ("version_info", JVal.null),
   ("error", JVal.str e)]

/-- The full fallback value of the `except` branch of
`get_title_and_summary` (source lines 129 to 139). -/
def errorResult (url e : String) : TitleSummary :=
  { title := "Processing Error: " ++ penultimateSegment url
  , summary := "Failed to process content: " ++ e
  , metadata := errorMetadata e }

/-- `get_title_and_summary(chunk, url)` (source lines 85 to 139): the
chunk itself only feeds the remote call, whose outcome is the `resp`
argument.  A successful response missing any of the three required keys
raises `ValueError`, caught by the same `except` branch as a failed
call. -/
def get_title_and_summary (url : String) (resp : Except String RawResponse) :
    TitleSummary :=
  match resp with
  | Except.error e => errorResult url e
  | Except.ok r =>
    if r.title?.isSome ∧ r.summary?.isSome ∧ r.metadata?.isSome then
      { title := r.title?.getD "", summary := r.summary?.getD "",
        metadata := r.metadata?.getD [] }
    else errorResult url "Missing required keys in API response"

/-- `get_embedding(text)` (source lines 141 to 151): the embedding call
outcome is the `resp` argument; on failure the source returns the empty
list.  Embedding components (Python floats) are modelled as rationals. -/
def get_embedding (resp : Except String (List Rat)) : List Rat :=
  match resp with
  | Except.ok v => v
  | Except.error _ => []

/-- The `ProcessedChunk` dataclass of the source (lines 27 to 35). -/
structure ProcessedChunk where
  url : String
  chunk_number : Nat
  title : String
  summary : String
  content : Text
  metadata : List (String × JVal)
  embedding : List Rat
deriving DecidableEq

/-- Outcomes of the two remote enrichment capabilities, per chunk. -/
structure EnrichOracle where
  meta : Text → String → Except String RawResponse
  embed : Text → Except String (List Rat)

/-- `process_chunk(chunk, chunk_number, url)` (source lines 153 to 169). -/
def process_chunk (o : EnrichOracle) (chunk : Text) (chunk_number : Nat)
    (url : String) : ProcessedChunk :=
  let result := get_title_and_summary url (o.meta chunk url)
  let embedding := get_embedding (o.embed chunk)
  { url := url, chunk_number := chunk_number, title := result.title,
    summary := result.summary, content := chunk, metadata := result.metadata,
    embedding := embedding }

/-- `insert_chunk(chunk)` (source lines 171 to 189): a plain supabase
`insert` into the table, modelled as appending a row; the `except`
branch (a rejected insert, after which the function returns `None`)
leaves the table unchanged.  `storeOk` is the acceptance oracle of the
external store.  No `upsert` call and no conflict key appear in the
source, and the repository declares no table constraint. -/
def insert_chunk (storeOk : ProcessedChunk → Bool) (db : List ProcessedChunk)
    (chunk : ProcessedChunk) : List ProcessedChunk :=
  if storeOk chunk then db ++ [chunk] else db

/-- `process_and_store_document(url, markdown)` (source lines 191 to
207): chunk the markdown, then per chunk enrich and insert, in order of
`enumerate(chunks)`.  The truthiness guard of the source on the dataclass is
always satisfied, and the sleep calls are pacing only. -/
def process_and_store_document (o : EnrichOracle)
    (storeOk : ProcessedChunk → Bool) (db : List ProcessedChunk)
    (url : String) (markdown : Text) : List ProcessedChunk :=
  (chunk_text markdown).enum.foldl
    (fun acc ic => insert_chunk storeOk acc (process_chunk o ic.2 ic.1 url)) db

/-- The number of stored rows whose url column equals `url`. -/
def countForUrl (db : List ProcessedChunk) (url : String) : Nat :=
  (db.filter (fun r => r.url == url)).length

/-! ### The fetch scheduler model -/

/-- The per-URL outcome of one `crawler.arun` task as observed after
`asyncio.gather(..., return_exceptions = True)` (source lines 375 to
388): a raised exception, a result with `success` true carrying
markdown, or a result with `success` false carrying an error message. -/
inductive FetchResult where
  | exn (msg : String)
  | ok (markdown : Text)
  | failed (errorMessage : String)

/-- Whether a fetch outcome is counted as a success. -/
def isOkResult : FetchResult → Bool
  | FetchResult.ok _ => true
  | _ => false

/-- The batches `urls[i : i + max_concurrent]` for
`i in range(0, len(urls), max_concurrent)` (source lines 365 to 366),
with fuel (`l.length` suffices when the step is positive; Python raises
on a zero step). -/
def toBatchesFuel {α : Type} (c : Nat) : Nat → List α → List (List α)
  | 0, _ => []
  | _ + 1, [] => []
  | fuel + 1, a :: rest =>
    ((a :: rest).take c) :: toBatchesFuel c fuel ((a :: rest).drop c)

/-- The batch partition of the URL list used by `crawl_parallel`. -/
def toBatches {α : Type} (c : Nat) (l : List α) : List (List α) :=
  toBatchesFuel c l.length l

/-- One turn of the result loop of `crawl_parallel` (source lines 378
to 388): an exception increments the failure count, a successful result
increments the success count and processes the document, any other
result increments the failure count.  The accumulator carries the two
counters and the store. -/
def crawlStep (fetch : String → FetchResult) (o : EnrichOracle)
    (storeOk : ProcessedChunk → Bool)
    (acc : (Nat × Nat) × List ProcessedChunk) (url : String) :
    (Nat × Nat) × List ProcessedChunk :=
  match fetch url with
  | FetchResult.exn _ => ((acc.1.1, acc.1.2 + 1), acc.2)
  | FetchResult.ok markdown =>
    ((acc.1.1 + 1, acc.1.2),
      process_and_store_document o storeOk acc.2 url markdown)
  | FetchResult.failed _ => ((acc.1.1, acc.1.2 + 1), acc.2)

/-- `crawl_parallel(urls, max_concurrent = 5)` (source lines 343 to
399): process the URLs in sequential batches of `max_concurrent`; the
batch gather followed by the zipped result loop is modelled by applying
the fetch outcome per URL in batch order.  Returns the final
`(success_count, fail_count)` pair together with the store. -/
def crawl_parallel (urls : List String) (maxConcurrent : Nat)
    (fetch : String → FetchResult) (o : EnrichOracle)
    (storeOk : ProcessedChunk → Bool) :
    (Nat × Nat) × List ProcessedChunk :=
  (toBatches maxConcurrent urls).foldl
    (fun acc batch => batch.foldl (crawlStep fetch o storeOk) acc)
    ((0, 0), [])

/-! ### Lemmas about batching and counting -/

theorem toBatchesFuel_nil {α : Type} (c fuel : Nat) :
    toBatchesFuel c fuel ([] : List α) = [] := by
  cases fuel <;> rfl

theorem toBatchesFuel_flatten {α : Type} (c : Nat) (hc : 1 ≤ c) :
    ∀ (fuel : Nat) (l : List α), l.length ≤ fuel →
      (toBatchesFuel c fuel l).flatten = l := by
  intro fuel
  induction fuel with
  | zero =>
    intro l hl
    have : l = [] := List.length_eq_zero.mp (by omega)
    rw [this]
    rfl
  | succ f ih =>
    intro l hl
    cases l with
    | nil => rfl
    | cons a rest =>
      rw [List.length_cons] at hl
      simp only [toBatchesFuel, List.flatten_cons]
      rw [ih ((a :: rest).drop c)
        (by rw [List.length_drop, List.length_cons]; omega)]
      exact List.take_append_drop c (a :: rest)

theorem toBatches_flatten {α : Type} (c : Nat) (hc : 1 ≤ c) (l : List α) :
    (toBatches c l).flatten = l :=
  toBatchesFuel_flatten c hc l.length l (le_refl _)

theorem toBatchesFuel_mem_length {α : Type} (c : Nat) :
    ∀ (fuel : Nat) (l : List α), ∀ b ∈ toBatchesFuel c fuel l, b.length ≤ c := by
  intro fuel
  induction fuel with
  | zero => intro l b hb; simp [toBatchesFuel] at hb
  | succ f ih =>
    intro l b hb
    cases l with
    | nil => simp [toBatchesFuel] at hb
    | cons a rest =>
      simp only [toBatchesFuel] at hb
      rcases List.mem_cons.mp hb with hbeq | hbm
      · rw [hbeq, List.length_take]
        omega
      · exact ih _ b hbm

theorem toBatchesFuel_dropLast_length {α : Type} (c : Nat) (hc : 1 ≤ c) :
    ∀ (fuel : Nat) (l : List α), l.length ≤ fuel →
      ∀ b ∈ (toBatchesFuel c fuel l).dropLast, b.length = c := by
  intro fuel
  induction fuel with
  | zero => intro l hl b hb; simp [toBatchesFuel] at hb
  | succ f ih =>
    intro l hl b hb
    cases l with
    | nil => simp [toBatchesFuel] at hb
    | cons a rest =>
      simp only [toBatchesFuel] at hb
      by_cases hr : toBatchesFuel c f ((a :: rest).drop c) = []
      · rw [hr] at hb
        simp at hb
      · rw [dropLast_cons_ne_nil _ hr] at hb
        have hdrop : (a :: rest).drop c ≠ [] := by
          intro h0
          rw [h0, toBatchesFuel_nil] at hr
          exact hr rfl
        have hlen : c < (a :: rest).length := by
          by_contra hcon
          rw [List.drop_eq_nil_of_le (by omega)] at hdrop
          exact hdrop rfl
        rcases List.mem_cons.mp hb with hbeq | hbm
        · rw [hbeq, List.length_take]
          omega
        · refine ih _ ?_ b hbm
          rw [List.length_cons] at hl
          rw [List.length_drop, List.length_cons]
          omega

theorem length_filter_add_length_filter_not {α : Type} (p : α → Bool)
    (l : List α) :
    (l.filter p).length + (l.filter (fun a => !p a)).length = l.length := by
  induction l with
  | nil => rfl
  | cons a as ih =>
    by_cases h : p a = true <;> simp [List.filter_cons, h] <;> omega

theorem foldl_crawlStep_counts (fetch : String → FetchResult)
    (o : EnrichOracle) (storeOk : ProcessedChunk → Bool) :
    ∀ (b : List String) (acc : (Nat × Nat) × List ProcessedChunk),
      (b.foldl (crawlStep fetch o storeOk) acc).1.1
          = acc.1.1 + (b.filter (fun u => isOkResult (fetch u))).length ∧
      (b.foldl (crawlStep fetch o storeOk) acc).1.2
          = acc.1.2 + (b.filter (fun u => !isOkResult (fetch u))).length := by
  intro b
  induction b with
  | nil => intro acc; simp
  | cons u us ih =>
    intro acc
    simp only [List.foldl_cons, List.filter_cons]
    obtain ⟨ih1, ih2⟩ := ih (crawlStep fetch o storeOk acc u)
    cases hf : fetch u with
    | exn m =>
      constructor
      · rw [ih1]
        simp [crawlStep, hf, isOkResult]
      · rw [ih2]
        simp [crawlStep, hf, isOkResult]
        try omega
    | ok md =>
      constructor
      · rw [ih1]
        simp [crawlStep, hf, isOkResult]
        try omega
      · rw [ih2]
        simp [crawlStep, hf, isOkResult]
    | failed m =>
      constructor
      · rw [ih1]
        simp [crawlStep, hf, isOkResult]
      · rw [ih2]
        simp [crawlStep, hf, isOkResult]
        try omega

theorem crawl_parallel_foldl_eq (urls : List String) (maxConcurrent : Nat)
    (hc : 1 ≤ maxConcurrent) (fetch : String → FetchResult)
    (o : EnrichOracle) (storeOk : ProcessedChunk → Bool) :
    crawl_parallel urls maxConcurrent fetch o storeOk
      = urls.foldl (crawlStep fetch o storeOk) ((0, 0), []) := by
  unfold crawl_parallel
  rw [← List.foldl_flatten, toBatches_flatten maxConcurrent hc]

/-! ### Lemmas about persistence -/

theorem foldl_insert_all (o : EnrichOracle) (url : String) :
    ∀ (l : List (Nat × Text)) (db : List ProcessedChunk),
      l.foldl
          (fun acc ic => insert_chunk (fun _ => true) acc
            (process_chunk o ic.2 ic.1 url)) db
        = db ++ l.map (fun ic => process_chunk o ic.2 ic.1 url) := by
  intro l
  induction l with
  | nil => intro db; simp
  | cons p ps ih =>
    intro db
    simp only [List.foldl_cons, List.map_cons]
    rw [ih]
    simp [insert_chunk]

theorem process_and_store_document_eq (o : EnrichOracle)
    (db : List ProcessedChunk) (url : String) (markdown : Text) :
    process_and_store_document o (fun _ => true) db url markdown
      = db ++ (chunk_text markdown).enum.map
          (fun ic => process_chunk o ic.2 ic.1 url) :=
  foldl_insert_all o url (chunk_text markdown).enum db

theorem countForUrl_append (db rows : List ProcessedChunk) (url : String) :
    countForUrl (db ++ rows) url = countForUrl db url + countForUrl rows url := by
  unfold countForUrl
  rw [List.filter_append, List.length_append]

theorem countForUrl_map_rows (o : EnrichOracle) (url : String)
    (l : List (Nat × Text)) :
    countForUrl (l.map (fun ic => process_chunk o ic.2 ic.1 url)) url
      = l.length := by
  unfold countForUrl
  rw [List.filter_eq_self.mpr, List.length_map]
  intro a ha
  rw [List.mem_map] at ha
  obtain ⟨ic, _, hic⟩ := ha
  rw [← hic]
  simp [process_chunk]

/-! ### The specification cascade for C3 -/

/-- The split-point cascade as the specification words it (section 4.1,
step 3, and the testable property in section 8): strategies tried in
priority order, each accepted only when its offset passes the thirty
percent floor, each rejected strategy falling through to the next, and
the hard cut only when none qualifies.  This definition follows the
words of the spec and is compared against `splitEnd`, which follows the
source. -/
def specSplitEnd (chunkSize : Nat) (t : Text) (start : Nat) : Nat :=
  if sectionBreak chunkSize t start ≠ -1 ∧
      10 * sectionBreak chunkSize t start > 3 * (chunkSize : Int) then
    start + (sectionBreak chunkSize t start).toNat
  else if rfind fencePat (window chunkSize t start) ≠ -1 ∧
      10 * rfind fencePat (window chunkSize t start) > 3 * (chunkSize : Int) then
    start + (rfind fencePat (window chunkSize t start)).toNat
  else if rfind blankPat (window chunkSize t start) ≠ -1 ∧
      10 * rfind blankPat (window chunkSize t start) > 3 * (chunkSize : Int) then
    start + (rfind blankPat (window chunkSize t start)).toNat
  else if rfind periodPat (window chunkSize t start) ≠ -1 ∧
      10 * rfind periodPat (window chunkSize t start) > 3 * (chunkSize : Int) then
    start + (rfind periodPat (window chunkSize t start)).toNat + 1
  else start + chunkSize

/-- A sixteen character text whose first window of size ten holds a
code fence at offset zero (floor fails) and a blank-line break at
offset four (floor passes). -/
def fallthroughText : Text :=
  [btick, btick, btick, 'a', '\n', '\n', 'b', 'c', 'd', 'e',
   'f', 'g', 'h', 'i', 'j', 'k']

/-- C3 counterexample: the claimed fall-through cascade disagrees with
the code.  In the first window of `fallthroughText` with target size 10
the code fence occurs at offset 0 (at most the floor of 3) and a
blank-line break occurs at offset 4 (past the floor); the source takes
the hard cut at 10, while the fall-through cascade of the spec would
split at the blank line at offset 4. -/
theorem splitEnd_fallthrough_cex :
    rfind fencePat (window 10 fallthroughText 0) = 0 ∧
    rfind blankPat (window 10 fallthroughText 0) = 4 ∧
    splitEnd 10 fallthroughText 0 = 10 ∧
    specSplitEnd 10 fallthroughText 0 = 4 ∧
    splitEnd 10 fallthroughText 0 ≠ specSplitEnd 10 fallthroughText 0 := by
  decide

/-- C3 (amended): within a window, strategies are tried in the source
priority order and every chosen split offset strictly exceeds the
thirty percent floor (the hard cut offset equals the target size, never
above it); however only the heading strategy falls through on a failed
floor check: when the code fence is present in the window but below the
floor, or the fence is absent and the blank line is present but below
the floor, or both are absent and the sentence terminator is present
but below the floor, the hard cut at the target size is taken without
consulting any later strategy. -/
theorem splitEnd_floor_and_priority (chunkSize : Nat) (t : Text) (start : Nat)
    (h : 1 ≤ chunkSize) :
    3 * chunkSize < 10 * (splitEnd chunkSize t start - start) ∧
    splitEnd chunkSize t start ≤ start + chunkSize ∧
    (¬ (sectionBreak chunkSize t start ≠ -1 ∧
          10 * sectionBreak chunkSize t start > 3 * (chunkSize : Int)) →
      rfind fencePat (window chunkSize t start) ≠ -1 →
      10 * rfind fencePat (window chunkSize t start) ≤ 3 * (chunkSize : Int) →
      splitEnd chunkSize t start = start + chunkSize) ∧
    (¬ (sectionBreak chunkSize t start ≠ -1 ∧
          10 * sectionBreak chunkSize t start > 3 * (chunkSize : Int)) →
      rfind fencePat (window chunkSize t start) = -1 →
      rfind blankPat (window chunkSize t start) ≠ -1 →
      10 * rfind blankPat (window chunkSize t start) ≤ 3 * (chunkSize : Int) →
      splitEnd chunkSize t start = start + chunkSize) ∧
    (¬ (sectionBreak chunkSize t start ≠ -1 ∧
          10 * sectionBreak chunkSize t start > 3 * (chunkSize : Int)) →
      rfind fencePat (window chunkSize t start) = -1 →
      rfind blankPat (window chunkSize t start) = -1 →
      rfind periodPat (window chunkSize t start) ≠ -1 →
      10 * rfind periodPat (window chunkSize t start) ≤ 3 * (chunkSize : Int) →
      splitEnd chunkSize t start = start + chunkSize) := by
  refine ⟨?_, splitEnd_le chunkSize t start, ?_, ?_, ?_⟩
  · obtain ⟨n, hn, hle, hor⟩ := splitEnd_spec chunkSize t start
    rcases hor with hc | hc <;> omega
  · intro hhead hfence hfloor
    unfold splitEnd
    rw [if_neg hhead, if_pos hfence, if_neg]
    intro hcon
    omega
  · intro hhead hfence hblank hfloor
    unfold splitEnd
    rw [if_neg hhead, if_neg (by simp [hfence]), if_pos hblank, if_neg]
    omega
  · intro hhead hfence hblank hperiod hfloor
    unfold splitEnd
    rw [if_neg hhead, if_neg (by simp [hfence]), if_neg (by simp [hblank]),
      if_pos hperiod, if_neg]
    omega

/-- C3 witness: the amended theorem applied at target size 10 on
`fallthroughText`. -/
theorem splitEnd_floor_and_priority_w :
    1 ≤ 10 ∧ 3 * 10 < 10 * (splitEnd 10 fallthroughText 0 - 0) :=
  ⟨by decide, (splitEnd_floor_and_priority 10 fallthroughText 0 (by decide)).1⟩

/-! ### Claims about whole chunking runs -/

/-- C4 counterexample: the single space is a non-empty input whose one
returned chunk is empty after trimming (the final remainder is appended
without the emptiness guard of the loop body). -/
theorem chunk_text_whitespace_cex :
    ([' '] : Text) ≠ [] ∧ chunk_text [' '] 4000 = [[]] ∧
      [] ∈ chunk_text [' '] 4000 := by
  decide

/-- C4 (amended): every non-empty input yields at least one chunk, every
returned chunk is trimmed of leading and trailing whitespace, and every
chunk except possibly the last is non-empty after trimming; the final
chunk is empty exactly when the trailing remainder is all whitespace. -/
theorem chunk_text_nonempty_trimmed (t : Text) (chunkSize : Nat)
    (h1 : t ≠ []) (h2 : 1 ≤ chunkSize) :
    chunk_text t chunkSize ≠ [] ∧
    (∀ c ∈ chunk_text t chunkSize, strip c = c) ∧
    (∀ c ∈ (chunk_text t chunkSize).dropLast, c ≠ []) := by
  have hpos : 0 < t.length := List.length_pos.mpr h1
  refine ⟨?_, ?_, ?_⟩
  · exact chunkLoop_ne_nil chunkSize t h2 (t.length + 1) 0 (by omega) (by omega)
  · exact fun c hc => mem_chunkLoop_strip chunkSize t (t.length + 1) 0 c hc
  · exact fun c hc =>
      chunkLoop_dropLast_ne_nil chunkSize t h2 (t.length + 1) 0 (by omega) c hc

/-- C4 witness: the amended theorem applied to a two character text. -/
theorem chunk_text_nonempty_trimmed_w :
    (['a', 'b'] : Text) ≠ [] ∧ 1 ≤ 1 ∧ chunk_text ['a', 'b'] 1 ≠ [] :=
  ⟨by decide, by decide,
    (chunk_text_nonempty_trimmed ['a', 'b'] 1 (by decide) (by decide)).1⟩

/-- C8 counterexample: the empty text is strictly shorter than the
target size 4000 yet `chunk_text` returns no chunk at all rather than
exactly one. -/
theorem chunk_text_empty_cex :
    (([] : Text)).length < 4000 ∧ chunk_text ([] : Text) 4000 = [] ∧
      (chunk_text ([] : Text) 4000).length ≠ 1 := by
  decide

/-- C8 (amended): every NON-EMPTY input text strictly shorter than the
target size yields exactly one chunk, equal to the trimmed input; the
empty input yields no chunks. -/
theorem chunk_text_short_input (t : Text) (chunkSize : Nat)
    (h1 : t ≠ []) (h2 : t.length < chunkSize) :
    chunk_text t chunkSize = [strip t] := by
  have hpos : 0 < t.length := List.length_pos.mpr h1
  unfold chunk_text
  simp only [chunkLoop]
  rw [if_pos hpos, if_pos (by omega), List.drop_zero]

/-- C8 witness: the amended theorem applied to a one character text. -/
theorem chunk_text_short_input_w :
    (['a'] : Text) ≠ [] ∧ (['a'] : Text).length < 4000 ∧
      chunk_text ['a'] 4000 = [strip ['a']] :=
  ⟨by decide, by decide, chunk_text_short_input ['a'] 4000 (by decide) (by decide)⟩

/-- C9: for every text and chunk size at least one, `chunk_text`
terminates: the cursor strictly advances on every iteration (every
accepted split offset exceeds the floor, which is positive, and the
hard cut advances by the chunk size), so the loop is insensitive to any
fuel of at least the text length; and for chunk size zero the cursor
does not advance at all. -/
theorem chunk_text_terminating (t : Text) (chunkSize : Nat)
    (h : 1 ≤ chunkSize) :
    (∀ start, start < splitEnd chunkSize t start) ∧
    (∀ fuel, t.length ≤ fuel →
      chunkLoop chunkSize t 0 fuel = chunk_text t chunkSize) ∧
    (∀ start, splitEnd 0 t start = start) := by
  refine ⟨fun start => splitEnd_advances chunkSize t start h, ?_, ?_⟩
  · intro fuel hf
    exact chunkLoop_stable chunkSize t h fuel 0 (t.length + 1)
      (by omega) (by omega)
  · exact fun start => splitEnd_zero t start

/-- C9 witness: the termination theorem applied at chunk size one. -/
theorem chunk_text_terminating_w :
    1 ≤ 1 ∧ ∀ start, start < splitEnd 1 ['a', 'b'] start :=
  ⟨by decide, (chunk_text_terminating ['a', 'b'] 1 (by decide)).1⟩

/-- C10: every chunk returned by `chunk_text` has length at most the
chunk size: split adjustments only move the window end earlier, and the
final remainder fits in one window. -/
theorem chunk_text_chunk_length_le (t : Text) (chunkSize : Nat) :
    ∀ c ∈ chunk_text t chunkSize, c.length ≤ chunkSize :=
  fun c hc => mem_chunkLoop_length chunkSize t (t.length + 1) 0 c hc

/-- C10 witness: the length bound applied to a concrete chunk of a
concrete text. -/
theorem chunk_text_chunk_length_le_w :
    ['h', 'i'] ∈ chunk_text ['h', 'i'] 4000 ∧ (['h', 'i'] : Text).length ≤ 4000 :=
  ⟨by decide, chunk_text_chunk_length_le ['h', 'i'] 4000 ['h', 'i'] (by decide)⟩

/-! ### Claims about persistence and enrichment -/

/-- Key lookup in a metadata object, for stating spec properties such
as the category of an error record. -/
def metaLookup (kvs : List (String × JVal)) (k : String) : Option JVal :=
  (kvs.find? (fun kv => kv.1 == k)).map (fun kv => kv.2)

/-- The enrichment oracle of the C1 counterexample: both remote calls
are down, so every chunk is persisted with the fallback enrichment. -/
def reingestOracle : EnrichOracle :=
  ⟨fun _ _ => Except.error "down", fun _ => Except.error "down"⟩

/-- C1 counterexample: `insert_chunk` performs a plain insert, not an
upsert, so ingesting the same two character page twice under the same
URL doubles the stored row count for that URL from 1 to 2 instead of
leaving it unchanged. -/
theorem insert_chunk_reingest_cex :
    countForUrl (process_and_store_document reingestOracle (fun _ => true)
        [] "a/b/" ['h', 'i']) "a/b/" = 1 ∧
    countForUrl (process_and_store_document reingestOracle (fun _ => true)
        (process_and_store_document reingestOracle (fun _ => true)
          [] "a/b/" ['h', 'i']) "a/b/" ['h', 'i']) "a/b/" = 2 := by
  decide

/-- C1 (amended): storing is a plain insert keyed by nothing: one
ingestion run of a page appends one row per chunk, so the stored row
count for the URL grows by the chunk count, and re-running the same
ingestion grows it again by the same amount, duplicating every
`(url, index)` pair rather than leaving the count unchanged. -/
theorem process_and_store_document_adds_rows (o : EnrichOracle)
    (db : List ProcessedChunk) (url : String) (markdown : Text) :
    countForUrl (process_and_store_document o (fun _ => true) db url markdown)
        url
      = countForUrl db url + (chunk_text markdown).length ∧
    countForUrl (process_and_store_document o (fun _ => true)
        (process_and_store_document o (fun _ => true) db url markdown)
        url markdown) url
      = countForUrl db url + 2 * (chunk_text markdown).length := by
  have h1 : ∀ d : List ProcessedChunk,
      countForUrl (process_and_store_document o (fun _ => true) d url markdown)
        url = countForUrl d url + (chunk_text markdown).length := by
    intro d
    rw [process_and_store_document_eq, countForUrl_append,
      countForUrl_map_rows, List.enum_length]
  refine ⟨h1 db, ?_⟩
  rw [h1 _, h1 db]
  omega

/-- C2 counterexample: on a failed embedding call the source returns
the empty list, which is not the zero vector of the configured
dimensionality 1536. -/
theorem get_embedding_zero_vector_cex :
    get_embedding (Except.error "boom") = ([] : List Rat) ∧
    get_embedding (Except.error "boom") ≠ List.replicate 1536 (0 : Rat) := by
  refine ⟨rfl, fun hcontra => ?_⟩
  have hlen := congrArg List.length hcontra
  rw [List.length_replicate] at hlen
  exact absurd hlen (by decide)

/-- C2 (amended): for every chunk whose embedding call fails, the
embedding substituted is the EMPTY list (length zero), not a
fixed-length zero vector, and the chunk is persisted with that empty
embedding. -/
theorem get_embedding_failure_empty (o : EnrichOracle) (chunk : Text)
    (i : Nat) (url e : String) (h : o.embed chunk = Except.error e) :
    get_embedding (o.embed chunk) = [] ∧
    (process_chunk o chunk i url).embedding = [] ∧
    (process_chunk o chunk i url).embedding.length = 0 ∧
    ∀ db, insert_chunk (fun _ => true) db (process_chunk o chunk i url)
        = db ++ [process_chunk o chunk i url] := by
  have hemb : get_embedding (o.embed chunk) = [] := by
    rw [h]
    rfl
  refine ⟨hemb, ?_, ?_, fun db => rfl⟩
  · simp [process_chunk, hemb]
  · simp [process_chunk, hemb]

/-- C2 witness: the amended theorem applied to an oracle whose
embedding capability fails. -/
theorem get_embedding_failure_empty_w :
    (EnrichOracle.mk (fun _ _ => Except.error "down")
        (fun _ => Except.error "boom")).embed ['h'] = Except.error "boom" ∧
    (process_chunk (EnrichOracle.mk (fun _ _ => Except.error "down")
        (fun _ => Except.error "boom")) ['h'] 0 "a/b/").embedding = [] :=
  ⟨rfl, (get_embedding_failure_empty _ ['h'] 0 "a/b/" "boom" rfl).2.1⟩

/-- C6: a metadata-extraction failure (a failed call, or a response
missing any of the required keys title, summary, metadata) enriches the
chunk with the fallback value: title derived from the penultimate URL
segment, summary naming the error text, and the error metadata object
whose category is the string Error; and the pipeline persists every
enriched chunk (fallback included) rather than aborting.  The
two-segment hypothesis matches the domain on which the Python negative
index is defined. -/
theorem metadata_fallback_persisted (o : EnrichOracle) (url : String)
    (db : List ProcessedChunk) (markdown : Text)
    (hseg : 2 ≤ (splitOnChar '/' url.data).length) :
    (∀ chunk i e, o.meta chunk url = Except.error e →
      (process_chunk o chunk i url).title
          = "Processing Error: " ++ penultimateSegment url ∧
      (process_chunk o chunk i url).summary
          = "Failed to process content: " ++ e ∧
      (process_chunk o chunk i url).metadata = errorMetadata e) ∧
    (∀ chunk i r, o.meta chunk url = Except.ok r →
      (r.title? = none ∨ r.summary? = none ∨ r.metadata? = none) →
      (process_chunk o chunk i url).title
          = "Processing Error: " ++ penultimateSegment url ∧
      (process_chunk o chunk i url).summary
          = "Failed to process content: "
              ++ "Missing required keys in API response" ∧
      (process_chunk o chunk i url).metadata
          = errorMetadata "Missing required keys in API response") ∧
    (∀ e, metaLookup (errorMetadata e) "category" = some (JVal.str "Error")) ∧
    process_and_store_document o (fun _ => true) db url markdown
      = db ++ (chunk_text markdown).enum.map
          (fun ic => process_chunk o ic.2 ic.1 url) := by
  refine ⟨?_, ?_, fun e => rfl, process_and_store_document_eq o db url markdown⟩
  · intro chunk i e hmeta
    refine ⟨?_, ?_, ?_⟩ <;>
      simp [process_chunk, hmeta, get_title_and_summary, errorResult]
  · intro chunk i r hmeta hmiss
    have hcond : ¬ (r.title?.isSome ∧ r.summary?.isSome ∧ r.metadata?.isSome) := by
      rcases hmiss with hm | hm | hm <;> simp [hm]
    refine ⟨?_, ?_, ?_⟩ <;>
      simp [process_chunk, hmeta, get_title_and_summary, hcond, errorResult]

/-- C6 witness: the fallback theorem applied to a URL with three slash
segments and an oracle whose metadata capability fails. -/
theorem metadata_fallback_persisted_w :
    2 ≤ (splitOnChar '/' "a/b/".data).length ∧
    (process_chunk (EnrichOracle.mk (fun _ _ => Except.error "down")
        (fun _ => Except.ok [])) ['h'] 0 "a/b/").title
      = "Processing Error: " ++ penultimateSegment "a/b/" :=
  ⟨by decide,
    ((metadata_fallback_persisted
        (EnrichOracle.mk (fun _ _ => Except.error "down")
          (fun _ => Except.ok [])) "a/b/" [] ['h']
        (by decide)).1 ['h'] 0 "down" rfl).1⟩

/-! ### Claims about the fetch scheduler -/

/-- C5: after the scheduler processes N URLs, every fetch result is
counted exactly once: the success counter equals the number of URLs
whose fetch succeeded, the failure counter equals the number of URLs
whose fetch raised or reported failure, and the two counters sum to N.
The characterisation holds for EVERY fetch outcome assignment, so one
URL failing does not change how any other URL is counted. -/
theorem crawl_parallel_counts_complete (urls : List String)
    (maxConcurrent : Nat) (fetch : String → FetchResult) (o : EnrichOracle)
    (storeOk : ProcessedChunk → Bool) (hc : 1 ≤ maxConcurrent) :
    (crawl_parallel urls maxConcurrent fetch o storeOk).1.1
        = (urls.filter (fun u => isOkResult (fetch u))).length ∧
    (crawl_parallel urls maxConcurrent fetch o storeOk).1.2
        = (urls.filter (fun u => !isOkResult (fetch u))).length ∧
    (crawl_parallel urls maxConcurrent fetch o storeOk).1.1
        + (crawl_parallel urls maxConcurrent fetch o storeOk).1.2
      = urls.length := by
  obtain ⟨h1, h2⟩ := foldl_crawlStep_counts fetch o storeOk urls ((0, 0), [])
  rw [crawl_parallel_foldl_eq urls maxConcurrent hc fetch o storeOk]
  have hsum := length_filter_add_length_filter_not
    (fun u => isOkResult (fetch u)) urls
  refine ⟨by rw [h1]; simp, by rw [h2]; simp, ?_⟩
  rw [h1, h2]
  simp
  omega

/-- C5 witness: the counting theorem applied to a three URL batch run
with concurrency two, one succeeding URL and two failing URLs. -/
theorem crawl_parallel_counts_complete_w :
    1 ≤ 2 ∧
    (crawl_parallel ["a", "b", "c"] 2
          (fun u => if u == "a" then FetchResult.ok ['m']
            else FetchResult.failed "e")
          reingestOracle (fun _ => true)).1.1
        + (crawl_parallel ["a", "b", "c"] 2
          (fun u => if u == "a" then FetchResult.ok ['m']
            else FetchResult.failed "e")
          reingestOracle (fun _ => true)).1.2
      = (["a", "b", "c"] : List String).length :=
  ⟨by decide,
    (crawl_parallel_counts_complete ["a", "b", "c"] 2
      (fun u => if u == "a" then FetchResult.ok ['m']
        else FetchResult.failed "e")
      reingestOracle (fun _ => true) (by decide)).2.2⟩

/-- C7: the scheduler partitions the URL list into sequential batches:
the batches concatenate back to the URL list in order, every batch has
at most `maxConcurrent` URLs, and every batch except possibly the last
has exactly `maxConcurrent` URLs.  Within the batch model, the fetches
in flight at any instant are the members of the single active batch, so
their number never exceeds `maxConcurrent`. -/
theorem crawl_parallel_batches_bound (urls : List String)
    (maxConcurrent : Nat) (hc : 1 ≤ maxConcurrent) :
    (toBatches maxConcurrent urls).flatten = urls ∧
    (∀ b ∈ toBatches maxConcurrent urls, b.length ≤ maxConcurrent) ∧
    (∀ b ∈ (toBatches maxConcurrent urls).dropLast,
      b.length = maxConcurrent) := by
  refine ⟨toBatches_flatten maxConcurrent hc urls, ?_, ?_⟩
  · exact fun b hb => toBatchesFuel_mem_length maxConcurrent urls.length urls b hb
  · exact fun b hb => toBatchesFuel_dropLast_length maxConcurrent hc
      urls.length urls (le_refl _) b hb

/-- C7 witness: the batch bound applied to five URLs with concurrency
two. -/
theorem crawl_parallel_batches_bound_w :
    1 ≤ 2 ∧
    (toBatches 2 ["a", "b", "c", "d", "e"]).flatten = ["a", "b", "c", "d", "e"] :=
  ⟨by decide, (crawl_parallel_batches_bound ["a", "b", "c", "d", "e"] 2
    (by decide)).1⟩
